import Mathlib

/-!
Verification of the Gummy Bears Monte Carlo simulator (`Gummy_Bears.ipynb`).

The notebook estimates the probability that a package of `package_size`
gummy bears, drawn independently and uniformly over `num_types` flavors,
contains every flavor at least once.

Embedding conventions:
* The ambient random source (`random.randrange`) is modelled by an explicit
  infinite stream `s : Nat → Nat` together with a running draw index: the
  i-th call of `randrange m` returns `s i % m`, which is uniform over
  `[0, m-1]` exactly when the stream is; `randrange 0` raises in Python and
  is modelled as `none`.
* Python floats are modelled as exact rationals `ℚ`.
* Console output is modelled explicitly: `run_single_trial` returns its
  estimate together with the list of records it printed.
* Fallible computations (division by zero, `randrange(0)`,
  `statistics.mean([])`) return `Option`.
-/

/-- Python `random.randrange(m)` at draw position `i` of stream `s`: an integer in
`[0, m-1]`, or failure (`ValueError`) when `m = 0`. -/
def randrange (s : Nat → Nat) (i : Nat) (m : Nat) : Option Nat :=
  if m = 0 then none else some (s i % m)

/-- Source `generate_gummy_bear_package_sample(package_size, num_types)`:
`[random.randrange(num_types) for i in range(package_size)]`, drawing from
stream `s` starting at index `i0`. -/
def generate_gummy_bear_package_sample (s : Nat → Nat) (i0 : Nat)
    (package_size num_types : Nat) : Option (List Nat) :=
  (List.range package_size).mapM (fun i => randrange s (i0 + i) num_types)

/-- Source `get_num_unique_gummy_bear_types(gummy_bear_package)`:
`len(set(gummy_bear_package))` — dump the list into a set and take its size. -/
def get_num_unique_gummy_bear_types (gummy_bear_package : List Nat) : Nat :=
  gummy_bear_package.toFinset.card

/-- Source `generate_samples(num_samples, package_size, num_types)`: one package per
sample, each reduced to its distinct-flavor count.  Sample `j` consumes the
`package_size` stream draws starting at `i0 + j * package_size`. -/
def generate_samples (s : Nat → Nat) (i0 : Nat)
    (num_samples package_size num_types : Nat) : Option (List Nat) :=
  (List.range num_samples).mapM (fun j =>
    (generate_gummy_bear_package_sample s (i0 + j * package_size)
        package_size num_types).map get_num_unique_gummy_bear_types)

/-- Source `run_single_trial(num_samples, package_size, num_types, print_results)`:
the fraction of samples containing all flavors, paired with the list of
console records `(num_samples, num_packages_with_all_types, estimate)` the
verbose branch printed.  Fails when a `randrange(0)` call fails or when the
final division has `num_samples = 0`. -/
def run_single_trial (s : Nat → Nat) (i0 : Nat)
    (num_samples package_size num_types : Nat)
    (print_results : Bool) : Option (ℚ × List (Nat × Nat × ℚ)) :=
  match generate_samples s i0 num_samples package_size num_types with
  | none => none
  | some samples =>
    let num_packages_with_all_types :=
      (samples.filter (fun x => x = num_types)).length
    if num_samples = 0 then none
    else
      let estimated_probability : ℚ :=
        (num_packages_with_all_types : ℚ) / (num_samples : ℚ)
      some (estimated_probability,
        if print_results then
          [(num_samples, num_packages_with_all_types, estimated_probability)]
        else [])

/-- Python `statistics.mean(data)`: arithmetic mean, raising (`none`) on empty data. -/
def statistics_mean (data : List ℚ) : Option ℚ :=
  if data.length = 0 then none else some (data.sum / (data.length : ℚ))

/-- Source `print_estimates(estimates, n, m)` computes and prints
`statistics.mean(estimates)`; this is the mean value it reports. -/
def print_estimates (estimates : List ℚ) : Option ℚ :=
  statistics_mean estimates

/-- Source `run_trials(num_trials, num_samples, package_size, num_types)`: runs
`run_single_trial` `num_trials` times (trial `t` consuming the stream draws
starting at `i0 + t * (num_samples * package_size)`), calls
`print_estimates`, and returns the estimates.  We return the printed mean as
well; failure of any trial or of `statistics.mean` propagates. -/
def run_trials (s : Nat → Nat) (i0 : Nat)
    (num_trials num_samples package_size num_types : Nat) :
    Option (List ℚ × ℚ) :=
  match (List.range num_trials).mapM (fun t =>
      (run_single_trial s (i0 + t * (num_samples * package_size))
          num_samples package_size num_types false).map Prod.fst) with
  | none => none
  | some estimates =>
    match print_estimates estimates with
    | none => none
    | some mean => some (estimates, mean)

/-- One observable call of the Distinct-Category Counter: its result paired
with the argument package as it stands after the call (the Python body
`len(set(x))` reads `x` and never mutates it). -/
def callCounter (gummy_bear_package : List Nat) : Nat × List Nat :=
  (get_num_unique_gummy_bear_types gummy_bear_package, gummy_bear_package)

/-- Spec-side definition ("the number of distinct values occurring in the
sequence"): the length of the deduplicated sequence. -/
def numDistinctValues (p : List Nat) : Nat :=
  p.dedup.length

/-- All packages of size `n` over flavors `[0, m-1]` (the sample space of the
package generator). -/
def allPackages : Nat → Nat → List (List Nat)
  | 0, _ => [[]]
  | n + 1, m =>
    (List.range m).flatMap (fun v => (allPackages n m).map (fun p => v :: p))

/-- The number of size-`n` packages over `m` flavors containing all `m`
flavors — packages that `run_single_trial` counts as successes. -/
def numAllTypePackages (n m : Nat) : Nat :=
  (allPackages n m).countP (fun p =>
    decide (get_num_unique_gummy_bear_types p = m))

/-- The true probability that a package of `n` uniform independent draws over
`m` flavors contains all `m` flavors (the quantity the Trial Runner's
estimate converges to): successes over the `m ^ n` equiprobable packages. -/
def trueProb (n m : Nat) : ℚ :=
  (numAllTypePackages n m : ℚ) / ((m : ℚ) ^ n)

/-- The concrete package the generator returns when `num_types ≠ 0`: draw `i`
is `s (i0 + i) % num_types`. -/
def packageOf (s : Nat → Nat) (i0 package_size num_types : Nat) : List Nat :=
  (List.range package_size).map (fun i => s (i0 + i) % num_types)

/-- The concrete sample list `generate_samples` returns when `num_types ≠ 0`. -/
def samplesOf (s : Nat → Nat) (i0 num_samples package_size num_types : Nat) :
    List Nat :=
  (List.range num_samples).map (fun j =>
    get_num_unique_gummy_bear_types
      (packageOf s (i0 + j * package_size) package_size num_types))

/-- The estimate a successful single trial returns. -/
def trialEstimate (s : Nat → Nat) (i0 ns ps nt : Nat) : ℚ :=
  ((((samplesOf s i0 ns ps nt).filter (fun x => x = nt)).length : ℚ)) / (ns : ℚ)

lemma mapM_option_eq_some_map {α β : Type} (f : α → Option β) (g : α → β)
    (l : List α) (h : ∀ a ∈ l, f a = some (g a)) : l.mapM f = some (l.map g) := by
  induction l with
  | nil => rfl
  | cons a l ih =>
    rw [List.mapM_cons, h a (List.mem_cons_self a l),
      ih (fun b hb => h b (List.mem_cons_of_mem _ hb))]
    rfl

lemma generate_package_eq (s : Nat → Nat) (i0 ps nt : Nat) (h : nt ≠ 0) :
    generate_gummy_bear_package_sample s i0 ps nt = some (packageOf s i0 ps nt) :=
  mapM_option_eq_some_map _ _ _ (fun i _ => by rw [randrange, if_neg h])

lemma generate_package_zero_size (s : Nat → Nat) (i0 nt : Nat) :
    generate_gummy_bear_package_sample s i0 0 nt = some [] := rfl

lemma packageOf_length (s : Nat → Nat) (i0 ps nt : Nat) :
    (packageOf s i0 ps nt).length = ps := by
  simp [packageOf]

lemma packageOf_mem_lt (s : Nat → Nat) (i0 ps nt : Nat) (h : nt ≠ 0) :
    ∀ x ∈ packageOf s i0 ps nt, x < nt := by
  intro x hx
  simp only [packageOf, List.mem_map] at hx
  obtain ⟨i, _, rfl⟩ := hx
  exact Nat.mod_lt _ (Nat.pos_of_ne_zero h)

lemma generate_samples_eq (s : Nat → Nat) (i0 ns ps nt : Nat) (h : nt ≠ 0) :
    generate_samples s i0 ns ps nt = some (samplesOf s i0 ns ps nt) := by
  apply mapM_option_eq_some_map
  intro j _
  rw [generate_package_eq s (i0 + j * ps) ps nt h]
  rfl

lemma generate_samples_zero_size (s : Nat → Nat) (i0 ns nt : Nat) :
    generate_samples s i0 ns 0 nt =
      some ((List.range ns).map (fun _ => 0)) := by
  apply mapM_option_eq_some_map
  intro j _
  rfl

lemma samplesOf_length (s : Nat → Nat) (i0 ns ps nt : Nat) :
    (samplesOf s i0 ns ps nt).length = ns := by
  simp [samplesOf]

lemma run_single_trial_eq (s : Nat → Nat) (i0 ns ps nt : Nat)
    (hnt : nt ≠ 0) (hns : ns ≠ 0) (pr : Bool) :
    run_single_trial s i0 ns ps nt pr =
      some (trialEstimate s i0 ns ps nt,
        if pr then
          [(ns, ((samplesOf s i0 ns ps nt).filter (fun x => x = nt)).length,
            trialEstimate s i0 ns ps nt)]
        else []) := by
  rw [run_single_trial, generate_samples_eq s i0 ns ps nt hnt]
  simp only [hns, if_false, trialEstimate, ite_false]

lemma get_num_unique_nil : get_num_unique_gummy_bear_types [] = 0 := rfl

lemma get_num_unique_eq_dedup_length (p : List Nat) :
    get_num_unique_gummy_bear_types p = numDistinctValues p :=
  List.card_toFinset p

lemma get_num_unique_pos (p : List Nat) (h : p ≠ []) :
    1 ≤ get_num_unique_gummy_bear_types p := by
  obtain ⟨a, q, rfl⟩ := List.exists_cons_of_ne_nil h
  exact Finset.card_pos.mpr ⟨a, List.mem_toFinset.mpr (List.mem_cons_self a q)⟩

lemma get_num_unique_le (p : List Nat) (m : Nat) (h : ∀ x ∈ p, x < m) :
    get_num_unique_gummy_bear_types p ≤ m := by
  have hsub : p.toFinset ⊆ Finset.range m := fun x hx =>
    Finset.mem_range.mpr (h x (List.mem_toFinset.mp hx))
  calc p.toFinset.card ≤ (Finset.range m).card := Finset.card_le_card hsub
    _ = m := Finset.card_range m

/-- C2: for every `package_size` n ≥ 0 and `num_types` m ≥ 1,
`generate_gummy_bear_package_sample(n, m)` returns a sequence of length
exactly `n` every element of which lies in the integer range `[0, m-1]`
(for any stream state of the random source). -/
theorem generate_package_length_and_range (s : Nat → Nat) (i0 n m : Nat)
    (hm : 1 ≤ m) :
    ∃ p, generate_gummy_bear_package_sample s i0 n m = some p ∧
      p.length = n ∧ ∀ x ∈ p, x < m :=
  ⟨packageOf s i0 n m, generate_package_eq s i0 n m (by omega),
    packageOf_length s i0 n m, packageOf_mem_lt s i0 n m (by omega)⟩

/-- Witness for C2 at the zero stream, `n = 2`, `m = 3`. -/
theorem generate_package_length_and_range_witness :
    ∃ p, generate_gummy_bear_package_sample (fun _ => 0) 0 2 3 = some p ∧
      p.length = 2 ∧ ∀ x ∈ p, x < 3 :=
  generate_package_length_and_range (fun _ => 0) 0 2 3 (by decide)

/-- C3: for every non-empty package whose elements all lie in `[0, m-1]`,
`get_num_unique_gummy_bear_types` returns exactly the number of distinct
values occurring in the sequence, and this number lies in `[1, m]`. -/
theorem num_unique_counts_distinct_in_range (p : List Nat) (m : Nat)
    (hne : p ≠ []) (hmem : ∀ x ∈ p, x < m) :
    get_num_unique_gummy_bear_types p = numDistinctValues p ∧
      1 ≤ get_num_unique_gummy_bear_types p ∧
      get_num_unique_gummy_bear_types p ≤ m :=
  ⟨get_num_unique_eq_dedup_length p, get_num_unique_pos p hne,
    get_num_unique_le p m hmem⟩

/-- Witness for C3 at the package `[0, 1, 1]` with `m = 2`. -/
theorem num_unique_counts_distinct_in_range_witness :
    get_num_unique_gummy_bear_types [0, 1, 1] = numDistinctValues [0, 1, 1] ∧
      1 ≤ get_num_unique_gummy_bear_types [0, 1, 1] ∧
      get_num_unique_gummy_bear_types [0, 1, 1] ≤ 2 :=
  num_unique_counts_distinct_in_range [0, 1, 1] 2 (by decide) (by decide)

/-- C7: invoking the Distinct-Category Counter twice on the same package
yields the same result both times, and each call leaves the package
unchanged (the call is pure: `callCounter` returns the result together with
the package as it stands afterwards). -/
theorem counter_call_idempotent_pure (p : List Nat) :
    (callCounter (callCounter p).2).1 = (callCounter p).1 ∧
      (callCounter (callCounter p).2).2 = p :=
  ⟨rfl, rfl⟩

lemma packageOf_one_one (s : Nat → Nat) (a : Nat) :
    packageOf s a 1 1 = [0] := by
  simp [packageOf, List.range_succ, Nat.mod_one]

lemma samplesOf_one_one (s : Nat → Nat) (i0 ns : Nat) :
    samplesOf s i0 ns 1 1 = (List.range ns).map (fun _ => 1) := by
  unfold samplesOf
  apply List.map_congr_left
  intro j _
  rw [packageOf_one_one]
  rfl

/-- C6: for every `num_samples > 0`, `run_single_trial` with
`package_size = 1` and `num_types = 1` returns an estimate of exactly 1
(all one-bear packages trivially contain the single flavor), for any stream
state and either verbose flag. -/
theorem single_trial_boundary_one (s : Nat → Nat) (i0 ns : Nat)
    (hns : 0 < ns) (pr : Bool) :
    (run_single_trial s i0 ns 1 1 pr).map Prod.fst = some 1 := by
  rw [run_single_trial_eq s i0 ns 1 1 one_ne_zero (by omega) pr,
    Option.map_some']
  congr 1
  rw [trialEstimate, samplesOf_one_one]
  have hfil : ((List.range ns).map (fun _ => 1)).filter
      (fun x => decide (x = 1)) = (List.range ns).map (fun _ => 1) := by
    rw [List.filter_eq_self]
    intro a ha
    rcases List.mem_map.mp ha with ⟨j, _, rfl⟩
    simp
  rw [hfil, List.length_map, List.length_range]
  exact div_self (Nat.cast_ne_zero.mpr (by omega))

/-- Witness for C6 at the zero stream with five samples. -/
theorem single_trial_boundary_one_witness :
    (run_single_trial (fun _ => 0) 0 5 1 1 false).map Prod.fst = some 1 :=
  single_trial_boundary_one (fun _ => 0) 0 5 (by decide) false

lemma samplesOf_zero_ps (s : Nat → Nat) (i0 ns nt : Nat) :
    samplesOf s i0 ns 0 nt = (List.range ns).map (fun _ => 0) := rfl

/-- C10: the Distinct-Category Counter returns 0 on the empty package (below
the spec's stated range `[1, m]`), and consequently a trial with
`package_size = 0` and `num_types ≥ 1` returns exactly 0 without error, for
every `num_samples > 0` and any stream state. -/
theorem empty_package_trial_zero (s : Nat → Nat) (i0 ns nt : Nat)
    (hns : 0 < ns) (hnt : 1 ≤ nt) :
    get_num_unique_gummy_bear_types [] = 0 ∧
      (run_single_trial s i0 ns 0 nt false).map Prod.fst = some 0 := by
  refine ⟨rfl, ?_⟩
  rw [run_single_trial_eq s i0 ns 0 nt (by omega) (by omega) false,
    Option.map_some']
  congr 1
  rw [trialEstimate, samplesOf_zero_ps]
  have hfil : ((List.range ns).map (fun _ => 0)).filter
      (fun x => decide (x = nt)) = [] := by
    rw [List.filter_eq_nil_iff]
    intro a ha
    rcases List.mem_map.mp ha with ⟨j, _, rfl⟩
    simp
    omega
  rw [hfil]
  simp

/-- Witness for C10 at the zero stream, three samples, two flavors. -/
theorem empty_package_trial_zero_witness :
    get_num_unique_gummy_bear_types [] = 0 ∧
      (run_single_trial (fun _ => 0) 0 3 0 2 false).map Prod.fst = some 0 :=
  empty_package_trial_zero (fun _ => 0) 0 3 2 (by decide) (by decide)

/-- C9: the verbose flag does not influence the result — for identical
random-source state the trial returns the same estimate whether
`print_results` is true or false; the flag only adds one console line. -/
theorem verbose_flag_result_invariant (s : Nat → Nat) (i0 ns ps nt : Nat)
    (hns : 0 < ns) (hps : 1 ≤ ps) (hnt : 1 ≤ nt) :
    (run_single_trial s i0 ns ps nt true).map Prod.fst =
        (run_single_trial s i0 ns ps nt false).map Prod.fst ∧
      (∃ line, (run_single_trial s i0 ns ps nt true).map Prod.snd =
        some [line]) ∧
      (run_single_trial s i0 ns ps nt false).map Prod.snd = some [] := by
  rw [run_single_trial_eq s i0 ns ps nt (by omega) (by omega) true,
    run_single_trial_eq s i0 ns ps nt (by omega) (by omega) false]
  exact ⟨rfl, ⟨_, rfl⟩, rfl⟩

/-- Witness for C9 at the zero stream with two samples of size two over two
flavors. -/
theorem verbose_flag_result_invariant_witness :
    (run_single_trial (fun _ => 0) 0 2 2 2 true).map Prod.fst =
        (run_single_trial (fun _ => 0) 0 2 2 2 false).map Prod.fst ∧
      (∃ line, (run_single_trial (fun _ => 0) 0 2 2 2 true).map Prod.snd =
        some [line]) ∧
      (run_single_trial (fun _ => 0) 0 2 2 2 false).map Prod.snd = some [] :=
  verbose_flag_result_invariant (fun _ => 0) 0 2 2 2 (by decide) (by decide)
    (by decide)

/-- C1: for positive parameters the trial returns exactly the number of
generated samples whose distinct-flavor count equals `num_types`, divided by
`num_samples`, and this value lies in `[0, 1]`. -/
theorem run_single_trial_fraction_in_unit_interval (s : Nat → Nat)
    (i0 ns ps nt : Nat) (pr : Bool)
    (hns : 0 < ns) (hps : 1 ≤ ps) (hnt : 1 ≤ nt) :
    ∃ samples q,
      generate_samples s i0 ns ps nt = some samples ∧
      (run_single_trial s i0 ns ps nt pr).map Prod.fst = some q ∧
      q = ((samples.filter (fun x => x = nt)).length : ℚ) / (ns : ℚ) ∧
      0 ≤ q ∧ q ≤ 1 := by
  have hcast : (0 : ℚ) < (ns : ℚ) := by exact_mod_cast hns
  refine ⟨samplesOf s i0 ns ps nt, trialEstimate s i0 ns ps nt,
    generate_samples_eq s i0 ns ps nt (by omega), ?_, rfl, ?_, ?_⟩
  · rw [run_single_trial_eq s i0 ns ps nt (by omega) (by omega) pr]
    rfl
  · exact div_nonneg (by positivity) (le_of_lt hcast)
  · rw [trialEstimate, div_le_one hcast]
    have hlen := List.length_filter_le (fun x => decide (x = nt))
      (samplesOf s i0 ns ps nt)
    rw [samplesOf_length] at hlen
    exact_mod_cast hlen

/-- Witness for C1 at the zero stream with one sample of size one over one
flavor. -/
theorem run_single_trial_fraction_in_unit_interval_witness :
    ∃ samples q,
      generate_samples (fun _ => 0) 0 1 1 1 = some samples ∧
      (run_single_trial (fun _ => 0) 0 1 1 1 false).map Prod.fst = some q ∧
      q = ((samples.filter (fun x => x = 1)).length : ℚ) / ((1 : Nat) : ℚ) ∧
      0 ≤ q ∧ q ≤ 1 :=
  run_single_trial_fraction_in_unit_interval (fun _ => 0) 0 1 1 1 false
    (by decide) (by decide) (by decide)

lemma generate_package_zero_types (s : Nat → Nat) (i0 ps : Nat)
    (hps : ps ≠ 0) :
    generate_gummy_bear_package_sample s i0 ps 0 = none := by
  obtain ⟨k, rfl⟩ : ∃ k, ps = k + 1 := ⟨ps - 1, by omega⟩
  rw [generate_gummy_bear_package_sample, List.range_succ_eq_map,
    List.mapM_cons]
  simp [randrange]

lemma generate_samples_zero_types (s : Nat → Nat) (i0 ns ps : Nat)
    (hns : ns ≠ 0) (hps : ps ≠ 0) :
    generate_samples s i0 ns ps 0 = none := by
  obtain ⟨k, rfl⟩ : ∃ k, ns = k + 1 := ⟨ns - 1, by omega⟩
  rw [generate_samples, List.range_succ_eq_map, List.mapM_cons]
  simp [generate_package_zero_types s _ ps hps]

lemma run_single_trial_ns_zero (s : Nat → Nat) (i0 ps nt : Nat) (pr : Bool) :
    run_single_trial s i0 0 ps nt pr = none := rfl

lemma run_single_trial_nt_zero (s : Nat → Nat) (i0 ns ps : Nat) (pr : Bool)
    (hns : ns ≠ 0) (hps : ps ≠ 0) :
    run_single_trial s i0 ns ps 0 pr = none := by
  rw [run_single_trial, generate_samples_zero_types s i0 ns ps hns hps]

/-- C5 counterexample: with `num_types = 0` but `package_size = 0`, no
random draw and no failing division happens — `run_single_trial(1, 0, 0)`
succeeds (each sample is the empty package, whose distinct count 0 equals
`num_types`), so `category_count = 0` does not always cause a failure. -/
theorem trial_zero_types_can_succeed :
    run_single_trial (fun _ => 0) 0 1 0 0 false ≠ none := by
  rw [run_single_trial, generate_samples_zero_size (fun _ => 0) 0 1 0]
  simp

/-- C5 (amended): `num_samples = 0` always causes the failure;
`category_count = 0` causes the failure whenever `package_size ≥ 1`; every
call with all inputs positive succeeds. -/
theorem trial_runner_failure_modes (s : Nat → Nat) (i0 ns ps nt : Nat)
    (pr : Bool) :
    (ns = 0 → run_single_trial s i0 ns ps nt pr = none) ∧
      (nt = 0 → 1 ≤ ps → run_single_trial s i0 ns ps nt pr = none) ∧
      (0 < ns → 1 ≤ ps → 1 ≤ nt →
        (run_single_trial s i0 ns ps nt pr).isSome = true) := by
  refine ⟨?_, ?_, ?_⟩
  · rintro rfl
    exact run_single_trial_ns_zero s i0 ps nt pr
  · rintro rfl hps
    cases ns with
    | zero => exact run_single_trial_ns_zero s i0 ps 0 pr
    | succ k =>
      exact run_single_trial_nt_zero s i0 (k + 1) ps pr (by omega) (by omega)
  · intro h1 h2 h3
    rw [run_single_trial_eq s i0 ns ps nt (by omega) (by omega) pr]
    rfl

/-- Witness for C5 (amended) at concrete degenerate and positive inputs. -/
theorem trial_runner_failure_modes_witness :
    run_single_trial (fun _ => 0) 0 0 1 1 false = none ∧
      run_single_trial (fun _ => 0) 0 2 1 0 false = none ∧
      (run_single_trial (fun _ => 0) 0 1 1 1 false).isSome = true :=
  ⟨(trial_runner_failure_modes (fun _ => 0) 0 0 1 1 false).1 rfl,
    (trial_runner_failure_modes (fun _ => 0) 0 2 1 0 false).2.1 rfl
      (by decide),
    (trial_runner_failure_modes (fun _ => 0) 0 1 1 1 false).2.2 (by decide)
      (by decide) (by decide)⟩

/-- The list of per-trial estimates a successful batch returns, trial `t`
reading the stream from index `i0 + t * (ns * ps)`. -/
def trialEstimates (s : Nat → Nat) (i0 T ns ps nt : Nat) : List ℚ :=
  (List.range T).map (fun t => trialEstimate s (i0 + t * (ns * ps)) ns ps nt)

lemma trialEstimates_length (s : Nat → Nat) (i0 T ns ps nt : Nat) :
    (trialEstimates s i0 T ns ps nt).length = T := by
  simp [trialEstimates]

lemma run_trials_eq (s : Nat → Nat) (i0 T ns ps nt : Nat)
    (hT : T ≠ 0) (hns : ns ≠ 0) (hnt : nt ≠ 0) :
    run_trials s i0 T ns ps nt =
      some (trialEstimates s i0 T ns ps nt,
        (trialEstimates s i0 T ns ps nt).sum /
          ((trialEstimates s i0 T ns ps nt).length : ℚ)) := by
  have hmap : (List.range T).mapM (fun t =>
      (run_single_trial s (i0 + t * (ns * ps)) ns ps nt false).map
        Prod.fst) = some (trialEstimates s i0 T ns ps nt) := by
    apply mapM_option_eq_some_map
    intro t _
    rw [run_single_trial_eq s _ ns ps nt hnt hns false]
    rfl
  have hlen := trialEstimates_length s i0 T ns ps nt
  rw [run_trials, hmap]
  simp only [print_estimates, statistics_mean, hlen, if_neg hT]

/-- C4 counterexample: with `num_trials = 0` the batch produces an empty
estimates list and `statistics.mean([])` raises before `run_trials` can
return, so `run_trials` does not return the (empty) sequence. -/
theorem run_trials_zero_trials_fails :
    run_trials (fun _ => 0) 0 0 1 1 1 = none := rfl

/-- C4 (amended): for every `num_trials ≥ 1` and positive parameters,
`run_trials` returns the ordered sequence of per-trial estimates — its
length equals `num_trials`, its `t`-th entry is the estimate of the `t`-th
trial invocation — and the mean it reports equals the arithmetic mean of
that sequence. -/
theorem run_trials_order_length_mean (s : Nat → Nat) (i0 T ns ps nt : Nat)
    (hT : 1 ≤ T) (hns : 0 < ns) (hps : 1 ≤ ps) (hnt : 1 ≤ nt) :
    ∃ ests mean, run_trials s i0 T ns ps nt = some (ests, mean) ∧
      ests.length = T ∧
      (∀ t, t < T →
        ests[t]? = (run_single_trial s (i0 + t * (ns * ps)) ns ps nt
          false).map Prod.fst) ∧
      mean = ests.sum / (ests.length : ℚ) := by
  refine ⟨trialEstimates s i0 T ns ps nt, _,
    run_trials_eq s i0 T ns ps nt (by omega) (by omega) (by omega),
    trialEstimates_length s i0 T ns ps nt, ?_, rfl⟩
  intro t ht
  rw [run_single_trial_eq s _ ns ps nt (by omega) (by omega) false,
    Option.map_some', trialEstimates, List.getElem?_map,
    List.getElem?_range ht]
  rfl

/-- Witness for C4 (amended) at the zero stream with one trial of one
sample of size one over one flavor. -/
theorem run_trials_order_length_mean_witness :
    ∃ ests mean, run_trials (fun _ => 0) 0 1 1 1 1 = some (ests, mean) ∧
      ests.length = 1 ∧
      (∀ t, t < 1 →
        ests[t]? = (run_single_trial (fun _ => 0) (0 + t * (1 * 1)) 1 1 1
          false).map Prod.fst) ∧
      mean = ests.sum / (ests.length : ℚ) :=
  run_trials_order_length_mean (fun _ => 0) 0 1 1 1 1 (by decide) (by decide)
    (by decide) (by decide)

lemma mem_allPackages (n m : Nat) (p : List Nat) :
    p ∈ allPackages n m ↔ p.length = n ∧ ∀ x ∈ p, x < m := by
  induction n generalizing p with
  | zero =>
    rw [allPackages, List.mem_singleton, List.length_eq_zero]
    constructor
    · rintro rfl
      exact ⟨rfl, fun x hx => absurd hx (List.not_mem_nil x)⟩
    · exact fun h => h.1
  | succ n ih =>
    rw [allPackages]
    simp only [List.mem_flatMap, List.mem_map, List.mem_range]
    constructor
    · rintro ⟨v, hv, q, hq, rfl⟩
      obtain ⟨hlen, helem⟩ := (ih q).mp hq
      refine ⟨by simp [hlen], ?_⟩
      intro x hx
      rcases List.mem_cons.mp hx with rfl | hx'
      · exact hv
      · exact helem x hx'
    · rintro ⟨hlen, helem⟩
      cases p with
      | nil => simp at hlen
      | cons v q =>
        refine ⟨v, helem v (List.mem_cons_self v q), q, (ih q).mpr
          ⟨by simpa using hlen, fun x hx => helem x
            (List.mem_cons_of_mem v hx)⟩, rfl⟩

lemma get_cons_eq_of_full (v m : Nat) (p : List Nat) (hv : v < m)
    (hp : ∀ x ∈ p, x < m) (h : get_num_unique_gummy_bear_types p = m) :
    get_num_unique_gummy_bear_types (v :: p) = m := by
  have hsub : p.toFinset ⊆ Finset.range m := fun x hx =>
    Finset.mem_range.mpr (hp x (List.mem_toFinset.mp hx))
  have hful : p.toFinset = Finset.range m :=
    Finset.eq_of_subset_of_card_le hsub
      (by rw [Finset.card_range]; exact le_of_eq h.symm)
  rw [get_num_unique_gummy_bear_types, List.toFinset_cons, hful,
    Finset.insert_eq_self.mpr (Finset.mem_range.mpr hv), Finset.card_range]

lemma countP_lt_of_mem {α : Type} {p q : α → Bool} {l : List α}
    (hmono : ∀ x ∈ l, p x = true → q x = true) (a : α) (ha : a ∈ l)
    (hqa : q a = true) (hpa : p a = false) :
    l.countP p < l.countP q := by
  induction l with
  | nil => exact absurd ha (List.not_mem_nil a)
  | cons b l ih =>
    rw [List.countP_cons, List.countP_cons]
    have hmono' : ∀ x ∈ l, p x = true → q x = true := fun x hx =>
      hmono x (List.mem_cons_of_mem b hx)
    rcases List.mem_cons.mp ha with rfl | ha'
    · rw [hpa, hqa]
      have := List.countP_mono_left hmono'
      simp only [Bool.false_eq_true, if_false, if_true]
      omega
    · have hlt := ih hmono' ha'
      by_cases hb : p b = true
      · rw [if_pos hb, if_pos (hmono b (List.mem_cons_self b l) hb)]
        omega
      · rw [if_neg hb]
        by_cases hqb : q b = true
        · rw [if_pos hqb]; omega
        · rw [if_neg hqb]; omega

lemma numAllTypePackages_succ (n m : Nat) :
    numAllTypePackages (n + 1) m =
      ((List.range m).map (fun v => (allPackages n m).countP
        (fun p => decide (get_num_unique_gummy_bear_types (v :: p)
          = m)))).sum := by
  rw [numAllTypePackages, allPackages, List.countP_flatMap]
  congr 1
  apply List.map_congr_left
  intro v _
  rw [Function.comp_apply, List.countP_map]
  rfl

lemma countP_cons_ge (n m v : Nat) (hv : v < m) :
    numAllTypePackages n m ≤ (allPackages n m).countP
      (fun p => decide (get_num_unique_gummy_bear_types (v :: p) = m)) := by
  apply List.countP_mono_left
  intro p hp hfull
  simp only [decide_eq_true_eq] at hfull ⊢
  exact get_cons_eq_of_full v m p hv ((mem_allPackages n m p).mp hp).2 hfull

lemma special_package_toFinset (n k : Nat) :
    (List.range (k + 1) ++ List.replicate (n - (k + 1)) 0).toFinset
      = Finset.range (k + 1) := by
  rw [List.toFinset_append]
  have h1 : (List.range (k + 1)).toFinset = Finset.range (k + 1) := by
    ext x; simp
  rw [h1, Finset.union_eq_left]
  intro x hx
  rw [List.mem_toFinset] at hx
  rw [List.eq_of_mem_replicate hx]
  exact Finset.mem_range.mpr (by omega)

lemma countP_cons_strict (n k : Nat) (hn : k + 1 ≤ n) :
    numAllTypePackages n (k + 2) <
      (allPackages n (k + 2)).countP (fun p =>
        decide (get_num_unique_gummy_bear_types ((k + 1) :: p)
          = (k + 2))) := by
  apply countP_lt_of_mem
    (fun p hp hfull => by
      simp only [decide_eq_true_eq] at hfull ⊢
      exact get_cons_eq_of_full (k + 1) (k + 2) p (by omega)
        ((mem_allPackages n (k + 2) p).mp hp).2 hfull)
    (List.range (k + 1) ++ List.replicate (n - (k + 1)) 0)
  · rw [mem_allPackages]
    constructor
    · rw [List.length_append, List.length_range, List.length_replicate]
      omega
    · intro x hx
      rcases List.mem_append.mp hx with hx' | hx'
      · have := List.mem_range.mp hx'
        omega
      · rw [List.eq_of_mem_replicate hx']
        omega
  · simp only [decide_eq_true_eq]
    rw [get_num_unique_gummy_bear_types, List.toFinset_cons,
      special_package_toFinset n k, ← Finset.range_succ, Finset.card_range]
  · simp only [decide_eq_false_iff_not]
    rw [get_num_unique_gummy_bear_types, special_package_toFinset n k,
      Finset.card_range]
    omega

lemma numAllTypePackages_lt (n k : Nat) (hn : k + 2 ≤ n) :
    (k + 2) * numAllTypePackages n (k + 2) <
      numAllTypePackages (n + 1) (k + 2) := by
  rw [numAllTypePackages_succ]
  have hr : List.range (k + 2) = List.range (k + 1) ++ [k + 1] :=
    List.range_succ (k + 1)
  rw [hr, List.map_append, List.sum_append]
  have h1 : (k + 1) * numAllTypePackages n (k + 2) ≤
      ((List.range (k + 1)).map (fun v => (allPackages n (k + 2)).countP
        (fun p => decide (get_num_unique_gummy_bear_types (v :: p)
          = (k + 2))))).sum := by
    calc (k + 1) * numAllTypePackages n (k + 2)
        = ((List.range (k + 1)).map
            (fun _ => numAllTypePackages n (k + 2))).sum := by
          rw [List.map_const', List.sum_replicate, List.length_range,
            smul_eq_mul]
      _ ≤ _ := List.sum_le_sum (fun v hv =>
          countP_cons_ge n (k + 2) v
            (by have := List.mem_range.mp hv; omega))
  have h2 : numAllTypePackages n (k + 2) <
      (([k + 1]).map (fun v => (allPackages n (k + 2)).countP
        (fun p => decide (get_num_unique_gummy_bear_types (v :: p)
          = (k + 2))))).sum := by
    simp only [List.map_cons, List.map_nil, List.sum_cons, List.sum_nil,
      Nat.add_zero]
    exact countP_cons_strict n k (by omega)
  calc (k + 2) * numAllTypePackages n (k + 2)
      = (k + 1) * numAllTypePackages n (k + 2)
          + numAllTypePackages n (k + 2) := by ring
    _ < _ := add_lt_add_of_le_of_lt h1 h2

/-- C8 counterexample: at `m = 1` (one flavor) every non-empty package
contains all flavors, so the true probability is constantly 1 and does not
strictly increase from `n = 2` to `n = 3`, although `2 > 1 ≥ 1`. -/
theorem trueProb_constant_for_one_flavor :
    (1 : Nat) ≤ 1 ∧ 1 < 2 ∧ ¬ trueProb 2 1 < trueProb 3 1 := by
  refine ⟨le_refl 1, by omega, ?_⟩
  rw [trueProb, trueProb, show numAllTypePackages 2 1 = 1 from by decide,
    show numAllTypePackages 3 1 = 1 from by decide]
  norm_num

/-- C8 (amended): for `m ≥ 2` and every `n > m`, the true probability that a
package of `n` uniform independent draws over `m` flavors contains all `m`
flavors — the expected value of the Trial Runner's estimate — strictly
increases in the package size (for `m = 1` it is constantly 1). -/
theorem trueProb_strictly_increasing (n m : Nat) (hm : 2 ≤ m) (hn : m < n) :
    trueProb n m < trueProb (n + 1) m := by
  obtain ⟨k, rfl⟩ : ∃ k, m = k + 2 := ⟨m - 2, by omega⟩
  have key := numAllTypePackages_lt n k (by omega)
  rw [trueProb, trueProb]
  have hm0 : (0 : ℚ) < ((k + 2 : Nat) : ℚ) :=
    by exact_mod_cast (by omega : (0 : Nat) < k + 2)
  have hpow1 : (0 : ℚ) < ((k + 2 : Nat) : ℚ) ^ (n + 1) := pow_pos hm0 _
  have hrw : (numAllTypePackages n (k + 2) : ℚ) / ((k + 2 : Nat) : ℚ) ^ n =
      (((k + 2) * numAllTypePackages n (k + 2) : Nat) : ℚ) /
        ((k + 2 : Nat) : ℚ) ^ (n + 1) := by
    push_cast
    rw [pow_succ, mul_comm (((k : ℚ) + 2) ^ n) ((k : ℚ) + 2),
      mul_div_mul_left _ _ (by positivity : (0 : ℚ) < (k : ℚ) + 2).ne']
  rw [hrw]
  exact (div_lt_div_iff_of_pos_right hpow1).mpr (by exact_mod_cast key)

/-- Witness for C8 (amended) at `m = 2`, `n = 3`. -/
theorem trueProb_strictly_increasing_witness :
    trueProb 3 2 < trueProb 4 2 :=
  trueProb_strictly_increasing 3 2 (by decide) (by decide)
